import Mathlib

/-!
# Verification of the opencode-dotenv core

Shallow embedding of the dotenv parser (`parseDotenv`, `parseValue`,
`findClosingQuote`, `isValidEnvKey`), the path guard (`expandPath`), the
configuration resolver (`loadConfig`) and the environment loader
(`loadDotenvFile` / `DotEnvPlugin`) from `src/index.ts`, together with
theorems settling the specification claims.

Strings are modelled by Lean `String` (a structure holding `data : List Char`);
every JavaScript string primitive used by the source is embedded as an
executable function on the character list.
-/

namespace Dotenv

/-- JavaScript whitespace (the characters relevant to `trim` and `\s`
for the inputs at hand). -/
def jsWs (c : Char) : Bool :=
  c == ' ' || c == '\t' || c == '\r' || c == '\n' || c == '\x0b' || c == '\x0c'

/-- `String.prototype.trim`: drop whitespace from both ends. -/
def trimChars (l : List Char) : List Char :=
  ((l.dropWhile jsWs).reverse.dropWhile jsWs).reverse

/-- `raw.trim()` on a string. -/
def jsTrim (s : String) : String := String.mk (trimChars s.data)

/-- `s.startsWith(c)` for a single-character pattern. -/
def startsWithChar (s : String) (c : Char) : Bool :=
  match s.data with
  | [] => false
  | d :: _ => d == c

/-- `s.endsWith(c)` for a single-character pattern. -/
def endsWithChar (s : String) (c : Char) : Bool :=
  match s.data.getLast? with
  | some d => d == c
  | none => false

/-- `s.startsWith(p)` for a string pattern. -/
def startsWithStr (s p : String) : Bool := p.data.isPrefixOf s.data

/-- `s.slice(0, -1)`: drop the last character. -/
def dropLastStr (s : String) : String := String.mk s.data.dropLast

/-- `s.substring(0, n)`. -/
def substrTo (s : String) (n : Nat) : String := String.mk (s.data.take n)

/-- `s.substring(n)`. -/
def substrFrom (s : String) (n : Nat) : String := String.mk (s.data.drop n)

/-- `s.substring(a, b)` (for `a ≤ b`): the characters at indices `[a, b)`. -/
def substrBetween (s : String) (a b : Nat) : String :=
  String.mk ((s.data.take b).drop a)

/-- `s.indexOf(c)` for a single character, with `none` for `-1`. -/
def idxOfChar (c : Char) : List Char → Option Nat
  | [] => none
  | d :: rest => if d = c then some 0 else (idxOfChar c rest).map (· + 1)

/-- `s.indexOf(ab)` for a two-character pattern `ab`, with `none` for `-1`. -/
def idx2 (a b : Char) : List Char → Option Nat
  | [] => none
  | [_] => none
  | c :: d :: rest =>
    if c = a ∧ d = b then some 0 else (idx2 a b (d :: rest)).map (· + 1)

/-- One pass of `str.replace(/ab/g, r)` for a two-character pattern:
non-overlapping occurrences are replaced left to right. -/
def rep2 (a b r : Char) : List Char → List Char
  | [] => []
  | [c] => [c]
  | c :: d :: rest =>
    if c = a ∧ d = b then r :: rep2 a b r rest
    else c :: rep2 a b r (d :: rest)

/-- `content.split(sep)` on character lists (JavaScript `String.split` with a
single-character separator; splitting the empty string yields `[""]`). -/
def splitCA (sep : Char) : List Char → List (List Char)
  | [] => [[]]
  | c :: rest =>
    if c = sep then [] :: splitCA sep rest
    else
      match splitCA sep rest with
      | [] => [[c]]
      | s :: ss => (c :: s) :: ss

/-- `content.split("\n")`. -/
def splitLines (s : String) : List String := (splitCA '\n' s.data).map String.mk

/-- First character of the regex `^[a-zA-Z_]`. -/
def keyHeadOk (c : Char) : Bool := c.isAlpha || c == '_'

/-- Later characters of the regex `[a-zA-Z0-9_]*`. -/
def keyTailOk (c : Char) : Bool := c.isAlphanum || c == '_'

/-- `VALID_ENV_KEY.test(key)` for `/^[a-zA-Z_][a-zA-Z0-9_]*$/`
(src/index.ts `isValidEnvKey`). -/
def isValidEnvKey (s : String) : Bool :=
  match s.data with
  | [] => false
  | c :: rest => keyHeadOk c && rest.all keyTailOk

/-- The scan of `findClosingQuote` (src/index.ts lines 93-106): from
position `i`, a backslash that is not the final character skips the next
character; an unescaped `q` is returned; otherwise advance. -/
def fcqAux (q : Char) : List Char → Nat → Option Nat
  | [], _ => none
  | [c], i => if c = q then some i else none
  | c :: d :: rest, i =>
    if c = '\\' then fcqAux q rest (i + 2)
    else if c = q then some i
    else fcqAux q (d :: rest) (i + 1)

/-- `findClosingQuote(str, quote)`: index of the first unescaped closing
quote at position ≥ 1, `none` for `-1`. -/
def findClosingQuote (s : String) (q : Char) : Option Nat :=
  fcqAux q (s.data.drop 1) 1

/-- The escape-processing of the double-quoted branch of `parseValue`:
the source applies five global `replace` calls in this order:
`\n`→newline, `\r`→CR, `\t`→tab, `\"`→`"`, `\\`→`\`. -/
def unescapeDq (s : String) : String :=
  String.mk (rep2 '\\' '\\' '\\'
    (rep2 '\\' '"' '"'
      (rep2 '\\' 't' '\t'
        (rep2 '\\' 'r' '\r'
          (rep2 '\\' 'n' '\n' s.data)))))

/-- `parseValue(raw)` (src/index.ts lines 59-91): trim; a leading double
quote with a closing quote is unescaped, a leading single quote with a
closing quote is literal, an unclosed quote returns the trimmed raw value
unchanged, and an unquoted value is truncated at the first `" #"` and
trimmed. -/
def parseValue (raw : String) : String :=
  let value := jsTrim raw
  if startsWithChar value '"' = true then
    match findClosingQuote value '"' with
    | some endQ => unescapeDq (substrBetween value 1 endQ)
    | none => value
  else if startsWithChar value '\'' = true then
    match findClosingQuote value '\'' with
    | some endQ => substrBetween value 1 endQ
    | none => value
  else
    match idx2 ' ' '#' value.data with
    | some i => jsTrim (substrTo value i)
    | none => jsTrim value

/-- `line.match(/^export\s+(.*)$/)`: if the line begins with `export`
followed by at least one whitespace character, return the capture (the rest
of the line after the maximal whitespace run). -/
def exportMatch (s : String) : Option String :=
  if "export".data.isPrefixOf s.data then
    match s.data.drop 6 with
    | [] => none
    | c :: _ =>
      if jsWs c then some (String.mk ((s.data.drop 6).dropWhile jsWs)) else none
  else none

/-- A JavaScript object used as a string map (`Record<string, string>`),
as an insertion-ordered association list with unique keys. -/
abbrev Rec := List (String × String)

/-- `obj[k] = v`: overwrite in place if the key is present, else append. -/
def insertKV (m : Rec) (k v : String) : Rec :=
  match m with
  | [] => [(k, v)]
  | (k', v') :: t => if k' = k then (k, v) :: t else (k', v') :: insertKV t k v

/-- `obj[k]` (first — and, keys being unique, only — binding). -/
def lookupKV (m : Rec) (q : String) : Option String :=
  match m with
  | [] => none
  | (k', v') :: t => if k' = q then some v' else lookupKV t q

/-- `k in obj`. -/
def containsKey (m : Rec) (q : String) : Bool := (lookupKV m q).isSome

/-- The assignment part of the per-line tail of the `parseDotenv` loop
(src/index.ts lines 45-53): find the first `=` (skipping the line when
there is none), trim the key, decode the value, and insert only non-empty
valid keys. -/
def assignLine (line1 : String) (acc : Rec) : Rec :=
  match idxOfChar '=' line1.data with
  | none => acc
  | some eqIdx =>
    let key := jsTrim (substrTo line1 eqIdx)
    let value := parseValue (substrFrom line1 (eqIdx + 1))
    if key ≠ "" ∧ isValidEnvKey key = true then insertKV acc key value else acc

/-- The per-line tail of the `parseDotenv` loop (src/index.ts lines 40-53):
strip an `export ` head, then process the assignment. -/
def finalizeLine (line : String) (acc : Rec) : Rec :=
  assignLine (match exportMatch line with | some r => r | none => line) acc

/-- The `while (i < lines.length)` loop of `parseDotenv` (src/index.ts lines
29-54) as explicit state passing.  The second argument is `none` between
logical lines and `some line` while the inner continuation loop is running
(`line` then ends in a backslash, which is removed before the next raw line
is appended verbatim).  A continuation line left pending when input runs out
keeps its trailing backslash. -/
def plAux : List String → Option String → Rec → Rec
  | [], none, acc => acc
  | [], some pline, acc => finalizeLine pline acc
  | l :: rest, none, acc =>
    let line := jsTrim l
    if line.data = [] ∨ startsWithChar line '#' = true then plAux rest none acc
    else if endsWithChar line '\\' = true then plAux rest (some line) acc
    else plAux rest none (finalizeLine line acc)
  | l :: rest, some pline, acc =>
    let line := dropLastStr pline ++ l
    if endsWithChar line '\\' = true then plAux rest (some line) acc
    else plAux rest none (finalizeLine line acc)

/-- `parseDotenv` on string content: split on `"\n"` and run the line loop. -/
def parseDotenvStr (content : String) : Rec :=
  plAux (splitLines content) none []

/-- A JavaScript value as passed to `parseDotenv`: either a string or any
non-string value (the `typeof content !== "string"` guard only
distinguishes these two cases). -/
inductive JsVal where
  | str (s : String)
  | nonStr
deriving DecidableEq

/-- `typeof v === "string"`. -/
def JsVal.isString : JsVal → Bool
  | .str _ => true
  | .nonStr => false

/-- `parseDotenv(content)` (src/index.ts lines 23-57): a non-string input
yields the empty object; a string is parsed line by line. -/
def parseDotenv : JsVal → Rec
  | .str s => parseDotenvStr s
  | .nonStr => []

/-- Join path segments with `/` (inverse of splitting on `/`). -/
def joinSegs : List (List Char) → List Char
  | [] => []
  | [x] => x
  | x :: y :: rest => x ++ '/' :: joinSegs (y :: rest)

/-- One step of POSIX path normalization for an absolute path: empty and
`.` segments vanish, `..` pops the last segment (and is dropped at the
root), any other segment is pushed. -/
def procStep (st : List (List Char)) (seg : List Char) : List (List Char) :=
  if seg = [] ∨ seg = ['.'] then st
  else if seg = ['.', '.'] then st.dropLast
  else st ++ [seg]

/-- Normalize the segments of an absolute path. -/
def procAll (segs : List (List Char)) : List (List Char) :=
  segs.foldl procStep []

/-- `node:path` `normalize` on an absolute path (as produced by `resolve`):
collapse separators and resolve `.`/`..` segments, dropping `..` at the
root; the result has no trailing slash. -/
def normAbs (s : String) : String :=
  String.mk ('/' :: joinSegs (procAll (splitCA '/' s.data)))

/-- `node:path` `resolve(p)` against the current working directory `cwd`
(an absolute path): an absolute `p` is normalized as is, a relative `p` is
appended to `cwd` first. -/
def jsResolve (cwd p : String) : String :=
  if startsWithChar p '/' = true then normAbs p else normAbs (cwd ++ "/" ++ p)

/-- `node:path` `normalize` as applied by `expandPath` (its argument, the
output of `resolve`, is always absolute). -/
def jsNormalize (s : String) : String :=
  if startsWithChar s '/' = true then normAbs s else s

/-- `rawPath.replace(/^~/, home)`: replace a single leading tilde. -/
def tildeExpand (raw home : String) : String :=
  if startsWithChar raw '~' = true then home ++ substrFrom raw 1 else raw

/-- `expandPath(rawPath)` (src/index.ts lines 112-127) with the home
directory and current working directory as explicit parameters: expand a
leading `~`, resolve against `cwd`, normalize, and accept the result only
if it begins with `home` or with `cwd` (plain string-prefix test),
returning `none` otherwise. -/
def expandPath (rawPath home cwd : String) : Option String :=
  let expanded := tildeExpand rawPath home
  let resolved := jsResolve cwd expanded
  let normalized := jsNormalize resolved
  if startsWithStr normalized home || startsWithStr normalized cwd then
    some normalized
  else none

/-- A normalized absolute path: a leading `/` followed by `/`-separated
segments none of which is empty, `.` or `..` (this excludes the bare root
`"/"` and any trailing slash). -/
def goodSeg (seg : List Char) : Bool :=
  ¬(seg = [] ∨ seg = ['.'] ∨ seg = ['.', '.'])

/-- Decidable check that a string is a normalized absolute path. -/
def isNormalAbs (s : String) : Bool :=
  match s.data with
  | [] => false
  | c :: rest => c = '/' && (splitCA '/' rest).all goodSeg

/-- Number of path segments of a normalized absolute path. -/
def segCount (s : String) : Nat := (splitCA '/' (s.data.drop 1)).length

/-- The `logging` field of the configuration document (`{ enabled?: boolean }`). -/
structure LoggingCfg where
  enabled : Option Bool
deriving DecidableEq

/-- The `DotEnvConfig` interface (src/index.ts lines 14-21); optional fields
are `Option`s, and `pfx` stands for the source's optional `prefix` field. -/
structure DotEnvConfig where
  files : List String
  load_cwd_env : Option Bool
  pfx : Option String
  logging : Option LoggingCfg
deriving DecidableEq

/-- `prefix ? `${prefix}${key}` : key` — an absent or empty (falsy) prefix
leaves the key unchanged. -/
def applyPfx (p : Option String) (k : String) : String :=
  match p with
  | some s => if s.data = [] then k else s ++ k
  | none => k

/-- The process environment, modelled like a JavaScript object. -/
abbrev Env := Rec

/-- The file system as seen by the loader: path → content; `none` covers a
missing file and a failed read alike (both make `loadDotenvFile` return
without touching the environment). -/
abbrev Fs := String → Option String

/-- The `for (const [key, value] of Object.entries(envVars))` loop of
`loadDotenvFile`: write every parsed pair into the environment under the
(possibly prefixed) key. -/
def writeVarsF (f : String → String) (env : Env) (vars : Rec) : Env :=
  vars.foldl (fun e kv => insertKV e (f kv.1) kv.2) env

/-- `loadDotenvFile(filePath, prefix)` (src/index.ts lines 190-214): a
missing or unreadable file leaves the environment unchanged and reports
failure; otherwise the content is parsed and every pair is written to the
environment, reporting the number of parsed keys. -/
def loadDotenvFile (fs : Fs) (filePath : String) (p : Option String) (env : Env) :
    Env × Nat × Bool :=
  match fs filePath with
  | none => (env, 0, false)
  | some content =>
    let envVars := parseDotenvStr content
    (writeVarsF (applyPfx p) env envVars, envVars.length, true)

/-- Load a list of already-validated paths in order. -/
def loadSeq (fs : Fs) (p : Option String) (paths : List String) (env : Env) : Env :=
  paths.foldl (fun e fp => (loadDotenvFile fs fp p e).1) env

/-- The `for (const rawPath of config.files)` loop of the plugin
(src/index.ts lines 232-246): run each raw entry through `expandPath`,
skipping rejected paths, and load the accepted ones in order. -/
def runFiles (fs : Fs) (home cwd : String) (p : Option String) :
    List String → Env → Env
  | [], env => env
  | raw :: rest, env =>
    match expandPath raw home cwd with
    | none => runFiles fs home cwd p rest env
    | some fp => runFiles fs home cwd p rest (loadDotenvFile fs fp p env).1

/-- The environment-loading core of `DotEnvPlugin` (src/index.ts lines
216-264): load `config.files` in order through the path guard, then —
unless `load_cwd_env` is exactly `false` — load `cwd + "/.env"` (which
bypasses the guard). -/
def DotEnvPlugin (config : DotEnvConfig) (fs : Fs) (home cwd : String)
    (env : Env) : Env :=
  let env1 := runFiles fs home cwd config.pfx config.files env
  if config.load_cwd_env = some false then env1
  else (loadDotenvFile fs (cwd ++ "/.env") config.pfx env1).1

/-- The outcome of reading and parsing the single candidate configuration
file: missing (or unreadable), structurally invalid (no parse, or no
array-valued `files` field), or a valid document. -/
inductive ConfigSource where
  | missing
  | invalid
  | valid (c : DotEnvConfig)
deriving DecidableEq

/-- Initial value of the module-level `loggingEnabled` flag
(src/index.ts line 129: `let loggingEnabled = true`). -/
def loggingEnabledInit : Bool := true

/-- The record returned when no valid configuration document is found:
`{ files: [], load_cwd_env: true }`. -/
def defaultConfig : DotEnvConfig :=
  { files := [], load_cwd_env := some true, pfx := none, logging := none }

/-- `loadConfig()` (src/index.ts lines 164-188) together with its effect on
the `loggingEnabled` flag: a missing or invalid document returns the
default record and leaves the flag unchanged; a valid document sets the
flag to `config.logging?.enabled !== false` and is returned as is. -/
def loadConfig : ConfigSource → Bool → DotEnvConfig × Bool
  | .missing, log0 => (defaultConfig, log0)
  | .invalid, log0 => (defaultConfig, log0)
  | .valid c, _ =>
    (c, if c.logging.bind LoggingCfg.enabled = some false then false else true)

/-- The ordered list of paths the plugin actually loads: the guard-accepted
expansions of `config.files` in order, then `cwd + "/.env"` unless
`load_cwd_env` is exactly `false`. -/
def effPaths (config : DotEnvConfig) (home cwd : String) : List String :=
  config.files.filterMap (fun r => expandPath r home cwd) ++
    (if config.load_cwd_env = some false then [] else [cwd ++ "/.env"])

/-- `a.orElse b` written out for `Option String`. -/
def orD (o d : Option String) : Option String :=
  match o with
  | some v => some v
  | none => d

/-- The value the loaded files assign to `k` under key transformation `f`:
the last matching write in `vars`. -/
def lookupLastF (f : String → String) : Rec → String → Option String
  | [], _ => none
  | kv :: t, q =>
    orD (lookupLastF f t q) (if f kv.1 = q then some kv.2 else none)

/-- The value key `k` receives from a list of files loaded in order: the
value from the latest file that exists and whose parsed map contains `k`. -/
def lastLoadedValue (fs : Fs) : List String → String → Option String
  | [], _ => none
  | fp :: t, k =>
    orD (lastLoadedValue fs t k)
      (match fs fp with
       | none => none
       | some c => lookupKV (parseDotenvStr c) k)

/-- The keys of a record, in insertion order. -/
def keysOf (m : Rec) : List String := m.map Prod.fst

/-- `lastLoadedValue` generalized over the key transformation applied when
writing (used to relate the loader to the per-file maps). -/
def lastLoadedF (fs : Fs) (f : String → String) : List String → String → Option String
  | [], _ => none
  | fp :: t, q =>
    orD (lastLoadedF fs f t q)
      (match fs fp with
       | none => none
       | some c => lookupLastF f (parseDotenvStr c) q)

/-! ## Helper lemmas on the parser -/

theorem startsWithChar_head (s : String) (c : Char) (l : List Char)
    (hd : s.data = c :: l) (d : Char) : startsWithChar s d = (c == d) := by
  unfold startsWithChar
  rw [hd]

theorem startsWithChar_ne (s : String) (a b : Char) (h : startsWithChar s a = true)
    (hab : a ≠ b) : startsWithChar s b = false := by
  cases hd : s.data with
  | nil =>
    have h0 : startsWithChar s a = false := by
      unfold startsWithChar; rw [hd]
    rw [h0] at h; cases h
  | cons c t =>
    rw [startsWithChar_head s c t hd] at h ⊢
    simp only [beq_iff_eq] at h
    subst h
    simp [beq_eq_false_iff_ne, hab]

/-! ## Claim C3: totality of the decoder -/

/-- C3.  For every input, `parseDotenv` terminates and returns a map, and
for every non-string input it returns the empty map. -/
theorem parseDotenv_total :
    (∀ v : JsVal, ∃ m : Rec, parseDotenv v = m) ∧
    (∀ v : JsVal, v.isString = false → parseDotenv v = []) := by
  refine ⟨fun v => ⟨parseDotenv v, rfl⟩, fun v hv => ?_⟩
  cases v with
  | str s => simp [JsVal.isString] at hv
  | nonStr => rfl

/-- Witness for C3 at the non-string input. -/
theorem parseDotenv_total_witness :
    JsVal.isString .nonStr = false ∧ parseDotenv .nonStr = [] :=
  ⟨by decide, parseDotenv_total.2 .nonStr (by decide)⟩

/-! ## Claim C5: quote-style asymmetry of value decoding -/

/-- C5.  A trimmed raw value starting with `"` and having a matching
unescaped closing `"` decodes to the substring between the quotes with the
five sequences `\n`, `\r`, `\t`, `\"`, `\\` unescaped (in that order of
passes, each scanning left to right); a trimmed raw value starting with `'`
and having a matching unescaped closing `'` decodes to the substring
between the quotes with no unescaping at all.  In particular
`KEY="a\nb"` yields a real newline and `KEY='a\nb'` the literal characters
`\` `n`. -/
theorem parseValue_quotes :
    (∀ raw j, startsWithChar (jsTrim raw) '"' = true →
      findClosingQuote (jsTrim raw) '"' = some j →
      parseValue raw = unescapeDq (substrBetween (jsTrim raw) 1 j)) ∧
    (∀ raw j, startsWithChar (jsTrim raw) '\'' = true →
      findClosingQuote (jsTrim raw) '\'' = some j →
      parseValue raw = substrBetween (jsTrim raw) 1 j) ∧
    parseDotenv (.str "KEY=\"a\\nb\"") = [("KEY", "a\nb")] ∧
    parseDotenv (.str "KEY='a\\nb'") = [("KEY", "a\\nb")] := by
  refine ⟨fun raw j h1 h2 => ?_, fun raw j h1 h2 => ?_, by decide, by decide⟩
  · simp only [parseValue, h1, h2, if_true]
  · have h0 : startsWithChar (jsTrim raw) '"' = false :=
      startsWithChar_ne _ '\'' '"' h1 (by decide)
    simp only [parseValue, h0, h1, h2, Bool.false_eq_true, if_false, if_true]

/-- Witness for C5 at concrete quoted values. -/
theorem parseValue_quotes_witness :
    startsWithChar (jsTrim "\"x\\ny\"") '"' = true ∧
    findClosingQuote (jsTrim "\"x\\ny\"") '"' = some 5 ∧
    parseValue "\"x\\ny\"" = unescapeDq (substrBetween (jsTrim "\"x\\ny\"") 1 5) ∧
    startsWithChar (jsTrim "'x\\ny'") '\'' = true ∧
    findClosingQuote (jsTrim "'x\\ny'") '\'' = some 5 ∧
    parseValue "'x\\ny'" = substrBetween (jsTrim "'x\\ny'") 1 5 :=
  ⟨by decide, by decide, parseValue_quotes.1 "\"x\\ny\"" 5 (by decide) (by decide),
   by decide, by decide,
   parseValue_quotes.2.1 "'x\\ny'" 5 (by decide) (by decide)⟩

/-! ## Claim C6: unclosed-quote fail-open -/

/-- C6.  A trimmed raw value starting with a double or single quote that
has no matching unescaped closing quote decodes to the trimmed raw string
unchanged, leading quote included; `KEY="unclosed` yields the literal
value `"unclosed`. -/
theorem parseValue_unclosed :
    (∀ raw, startsWithChar (jsTrim raw) '"' = true →
      findClosingQuote (jsTrim raw) '"' = none → parseValue raw = jsTrim raw) ∧
    (∀ raw, startsWithChar (jsTrim raw) '\'' = true →
      findClosingQuote (jsTrim raw) '\'' = none → parseValue raw = jsTrim raw) ∧
    parseDotenv (.str "KEY=\"unclosed") = [("KEY", "\"unclosed")] := by
  refine ⟨fun raw h1 h2 => ?_, fun raw h1 h2 => ?_, by decide⟩
  · simp only [parseValue, h1, h2, if_true]
  · have h0 : startsWithChar (jsTrim raw) '"' = false :=
      startsWithChar_ne _ '\'' '"' h1 (by decide)
    simp only [parseValue, h0, h1, h2, Bool.false_eq_true, if_false, if_true]

/-- Witness for C6 at concrete unterminated values. -/
theorem parseValue_unclosed_witness :
    startsWithChar (jsTrim "\"oops") '"' = true ∧
    findClosingQuote (jsTrim "\"oops") '"' = none ∧
    parseValue "\"oops" = jsTrim "\"oops" ∧
    startsWithChar (jsTrim "'oops") '\'' = true ∧
    findClosingQuote (jsTrim "'oops") '\'' = none ∧
    parseValue "'oops" = jsTrim "'oops" :=
  ⟨by decide, by decide, parseValue_unclosed.1 "\"oops" (by decide) (by decide),
   by decide, by decide, parseValue_unclosed.2.1 "'oops" (by decide) (by decide)⟩

/-! ## Claim C7: unquoted inline-comment rule -/

/-- C7.  A trimmed raw value starting with neither quote character is
truncated at the first occurrence of the two-character sequence `" #"` and
trimmed (and merely re-trimmed when no such sequence occurs); consequently
`value # comment` decodes to `value` while `value#notcomment` is kept
unchanged. -/
theorem parseValue_inlineComment :
    (∀ raw i, startsWithChar (jsTrim raw) '"' = false →
      startsWithChar (jsTrim raw) '\'' = false →
      idx2 ' ' '#' (jsTrim raw).data = some i →
      parseValue raw = jsTrim (substrTo (jsTrim raw) i)) ∧
    (∀ raw, startsWithChar (jsTrim raw) '"' = false →
      startsWithChar (jsTrim raw) '\'' = false →
      idx2 ' ' '#' (jsTrim raw).data = none →
      parseValue raw = jsTrim (jsTrim raw)) ∧
    parseDotenv (.str "KEY=value # comment") = [("KEY", "value")] ∧
    parseDotenv (.str "KEY=value#notcomment") = [("KEY", "value#notcomment")] := by
  refine ⟨fun raw i h1 h2 h3 => ?_, fun raw h1 h2 h3 => ?_, by decide, by decide⟩
  · simp only [parseValue, h1, h2, h3, Bool.false_eq_true, if_false]
  · simp only [parseValue, h1, h2, h3, Bool.false_eq_true, if_false]

/-- Witness for C7 at concrete unquoted values. -/
theorem parseValue_inlineComment_witness :
    idx2 ' ' '#' (jsTrim "value # comment").data = some 5 ∧
    parseValue "value # comment" = jsTrim (substrTo (jsTrim "value # comment") 5) ∧
    idx2 ' ' '#' (jsTrim "value#notcomment").data = none ∧
    parseValue "value#notcomment" = jsTrim (jsTrim "value#notcomment") :=
  ⟨by decide,
   parseValue_inlineComment.1 "value # comment" 5 (by decide) (by decide) (by decide),
   by decide,
   parseValue_inlineComment.2.1 "value#notcomment" (by decide) (by decide) (by decide)⟩

/-! ## Claim C8: line-continuation rule -/

/-- C8.  While the (initially trimmed) logical line ends in a trailing
backslash and raw lines remain, the decoder removes the backslash and
appends the next raw line verbatim, consuming it, until no trailing
backslash remains or input is exhausted; `KEY=a\⏎b\⏎c` decodes `KEY` to
`abc`, and a trailing backslash on the final line is kept in the value. -/
theorem parseDotenv_continuation :
    (∀ l rest acc, (jsTrim l).data ≠ [] → startsWithChar (jsTrim l) '#' = false →
      endsWithChar (jsTrim l) '\\' = true →
      plAux (l :: rest) none acc = plAux rest (some (jsTrim l)) acc) ∧
    (∀ pline l rest acc,
      plAux (l :: rest) (some pline) acc =
        (if endsWithChar (dropLastStr pline ++ l) '\\' = true then
          plAux rest (some (dropLastStr pline ++ l)) acc
        else plAux rest none (finalizeLine (dropLastStr pline ++ l) acc))) ∧
    (∀ pline acc, plAux [] (some pline) acc = finalizeLine pline acc) ∧
    parseDotenv (.str "KEY=a\\\nb\\\nc") = [("KEY", "abc")] ∧
    parseDotenv (.str "KEY=a\\") = [("KEY", "a\\")] := by
  refine ⟨fun l rest acc h1 h2 h3 => ?_, fun pline l rest acc => ?_,
    fun pline acc => rfl, by decide, by decide⟩
  · simp only [plAux, h1, h2, h3, Bool.false_eq_true, if_false, if_true, false_or]
  · simp only [plAux]

/-- Witness for C8: the continuation step at a concrete line. -/
theorem parseDotenv_continuation_witness :
    (jsTrim "KEY=a\\").data ≠ [] ∧
    startsWithChar (jsTrim "KEY=a\\") '#' = false ∧
    endsWithChar (jsTrim "KEY=a\\") '\\' = true ∧
    plAux ["KEY=a\\", "b"] none [] = plAux ["b"] (some (jsTrim "KEY=a\\")) [] :=
  ⟨by decide, by decide, by decide,
   parseDotenv_continuation.1 "KEY=a\\" ["b"] [] (by decide) (by decide) (by decide)⟩

/-! ## Claim C4: output-key invariant -/

theorem lookupKV_insertKV (m : Rec) (k v q : String) :
    lookupKV (insertKV m k v) q = if k = q then some v else lookupKV m q := by
  induction m with
  | nil => simp [insertKV, lookupKV]
  | cons kv t ih =>
    obtain ⟨k', v'⟩ := kv
    by_cases hk : k' = k
    · subst hk
      by_cases hq : k' = q <;> simp [insertKV, lookupKV, hq]
    · by_cases hq1 : k' = q
      · subst hq1
        have hq2 : ¬ k = k' := fun h => hk h.symm
        simp [insertKV, lookupKV, hk, hq2]
      · simp [insertKV, lookupKV, hk, hq1, ih]

theorem containsKey_insertKV (m : Rec) (k v q : String) :
    containsKey (insertKV m k v) q = true ↔ k = q ∨ containsKey m q = true := by
  simp only [containsKey, lookupKV_insertKV]
  by_cases h : k = q <;> simp [h]

theorem assignLine_valid (line1 : String) (acc : Rec)
    (hacc : ∀ k, containsKey acc k = true → isValidEnvKey k = true) :
    ∀ k, containsKey (assignLine line1 acc) k = true → isValidEnvKey k = true := by
  intro k hk
  unfold assignLine at hk
  split at hk
  · exact hacc k hk
  · dsimp only at hk
    split at hk
    · rename_i hkey
      rcases (containsKey_insertKV _ _ _ _).mp hk with h | h
      · exact h ▸ hkey.2
      · exact hacc k h
    · exact hacc k hk

theorem finalizeLine_valid (line : String) (acc : Rec)
    (hacc : ∀ k, containsKey acc k = true → isValidEnvKey k = true) :
    ∀ k, containsKey (finalizeLine line acc) k = true → isValidEnvKey k = true := by
  intro k hk
  exact assignLine_valid _ acc hacc k hk

theorem plAux_valid (lines : List String) :
    ∀ (st : Option String) (acc : Rec),
      (∀ k, containsKey acc k = true → isValidEnvKey k = true) →
      ∀ k, containsKey (plAux lines st acc) k = true → isValidEnvKey k = true := by
  induction lines with
  | nil =>
    intro st acc hacc k hk
    cases st with
    | none => exact hacc k hk
    | some pline => exact finalizeLine_valid pline acc hacc k hk
  | cons l rest ih =>
    intro st acc hacc k hk
    cases st with
    | none =>
      rw [plAux] at hk
      split at hk
      · exact ih none acc hacc k hk
      · split at hk
        · exact ih _ acc hacc k hk
        · exact ih none _ (finalizeLine_valid _ acc hacc) k hk
    | some pline =>
      rw [plAux] at hk
      split at hk
      · exact ih _ acc hacc k hk
      · exact ih none _ (finalizeLine_valid _ acc hacc) k hk

/-- C4.  Every key in the map returned by `parseDotenv` matches
`^[A-Za-z_][A-Za-z0-9_]*$`; keys such as `123START`, `HAS-DASH`,
`HAS SPACE` or the empty string are never present. -/
theorem parseDotenv_keys_valid :
    (∀ (s : String) (k : String),
      containsKey (parseDotenv (.str s)) k = true → isValidEnvKey k = true) ∧
    (∀ s : String,
      containsKey (parseDotenv (.str s)) "123START" = false ∧
      containsKey (parseDotenv (.str s)) "HAS-DASH" = false ∧
      containsKey (parseDotenv (.str s)) "HAS SPACE" = false ∧
      containsKey (parseDotenv (.str s)) "" = false) := by
  have main : ∀ (s : String) (k : String),
      containsKey (parseDotenv (.str s)) k = true → isValidEnvKey k = true :=
    fun s k hk => plAux_valid (splitLines s) none [] (by intro k' h; cases h) k hk
  refine ⟨main, fun s => ?_⟩
  refine ⟨?_, ?_, ?_, ?_⟩ <;>
    [ (have hbad : isValidEnvKey "123START" = false := by decide);
      (have hbad : isValidEnvKey "HAS-DASH" = false := by decide);
      (have hbad : isValidEnvKey "HAS SPACE" = false := by decide);
      (have hbad : isValidEnvKey "" = false := by decide)] <;>
    (cases hc : containsKey (parseDotenv (.str s)) _
     · rfl
     · exact absurd (main s _ hc) (by rw [hbad]; exact fun h => nomatch h))

/-- Witness for C4 at a concrete document containing invalid keys. -/
theorem parseDotenv_keys_valid_witness :
    containsKey (parseDotenv (.str "A_1=x\n123START=y\nHAS-DASH=z")) "A_1" = true ∧
    isValidEnvKey "A_1" = true ∧
    containsKey (parseDotenv (.str "A_1=x\n123START=y\nHAS-DASH=z")) "123START" = false :=
  ⟨by decide,
   parseDotenv_keys_valid.1 "A_1=x\n123START=y\nHAS-DASH=z" "A_1" (by decide),
   (parseDotenv_keys_valid.2 "A_1=x\n123START=y\nHAS-DASH=z").1⟩

/-! ## Helper lemmas on path splitting and joining -/

theorem splitCA_ne_nil (sep : Char) (l : List Char) : splitCA sep l ≠ [] := by
  cases l with
  | nil => simp [splitCA]
  | cons c rest =>
    unfold splitCA
    split
    · simp
    · split <;> simp

theorem joinSegs_cons_cons (c : Char) (s : List Char)
    (ss : List (List Char)) :
    joinSegs ((c :: s) :: ss) = c :: joinSegs (s :: ss) := by
  cases ss <;> rfl

theorem joinSegs_splitCA (l : List Char) :
    joinSegs (splitCA '/' l) = l := by
  induction l with
  | nil => rfl
  | cons c rest ih =>
    unfold splitCA
    by_cases hc : c = '/'
    · subst hc
      simp only [if_pos rfl]
      rcases hs : splitCA '/' rest with _ | ⟨s, ss⟩
      · exact absurd hs (splitCA_ne_nil '/' rest)
      · rw [hs] at ih
        show joinSegs ([] :: s :: ss) = '/' :: rest
        rw [show joinSegs ([] :: s :: ss) = [] ++ '/' :: joinSegs (s :: ss) from rfl]
        rw [ih]
        rfl
    · simp only [if_neg hc]
      rcases hs : splitCA '/' rest with _ | ⟨s, ss⟩
      · exact absurd hs (splitCA_ne_nil '/' rest)
      · rw [hs] at ih
        rw [joinSegs_cons_cons c s, ih]

theorem mem_splitCA_no_sep (sep : Char) (l : List Char) :
    ∀ seg ∈ splitCA sep l, sep ∉ seg := by
  induction l with
  | nil =>
    intro seg hseg
    simp [splitCA] at hseg
    simp [hseg]
  | cons c rest ih =>
    intro seg hseg
    unfold splitCA at hseg
    by_cases hc : c = sep
    · rw [if_pos hc] at hseg
      rcases List.mem_cons.mp hseg with h | h
      · simp [h]
      · exact ih seg h
    · rw [if_neg hc] at hseg
      rcases hs : splitCA sep rest with _ | ⟨s, ss⟩
      · exact absurd hs (splitCA_ne_nil sep rest)
      · rw [hs] at hseg
        rcases List.mem_cons.mp hseg with h | h
        · subst h
          intro hmem
          rcases List.mem_cons.mp hmem with h' | h'
          · exact hc h'.symm
          · exact ih s (hs ▸ List.mem_cons_self s ss) h'
        · exact ih seg (hs ▸ List.mem_cons_of_mem s h)

theorem splitCA_seg_append (sep : Char) (s l : List Char) (hs : sep ∉ s) :
    splitCA sep (s ++ sep :: l) = s :: splitCA sep l := by
  induction s with
  | nil => simp [splitCA]
  | cons c s' ih =>
    have hc : ¬ c = sep := fun h => hs (h ▸ List.mem_cons_self c s')
    have hs' : sep ∉ s' := fun h => hs (List.mem_cons_of_mem c h)
    rw [List.cons_append]
    simp only [splitCA, if_neg hc]
    rw [ih hs']

theorem splitCA_no_sep (sep : Char) (s : List Char) (hs : sep ∉ s) :
    splitCA sep s = [s] := by
  induction s with
  | nil => rfl
  | cons c s' ih =>
    have hc : ¬ c = sep := fun h => hs (h ▸ List.mem_cons_self c s')
    have hs' : sep ∉ s' := fun h => hs (List.mem_cons_of_mem c h)
    simp only [splitCA, if_neg hc]
    rw [ih hs']

theorem splitCA_joinSegs_append (l : List Char) :
    ∀ H : List (List Char), (∀ seg ∈ H, '/' ∉ seg) → H ≠ [] →
      splitCA '/' (joinSegs H ++ '/' :: l) = H ++ splitCA '/' l := by
  intro H
  induction H with
  | nil => intro _ h; exact absurd rfl h
  | cons x t ih =>
    intro hfree _
    cases t with
    | nil =>
      have hx : '/' ∉ x := hfree x (List.mem_cons_self x [])
      show splitCA '/' (x ++ '/' :: l) = x :: splitCA '/' l
      exact splitCA_seg_append '/' x l hx
    | cons y t' =>
      have hx : '/' ∉ x := hfree x (List.mem_cons_self x _)
      have hrest : ∀ seg ∈ y :: t', '/' ∉ seg :=
        fun seg hseg => hfree seg (List.mem_cons_of_mem x hseg)
      rw [show joinSegs (x :: y :: t') = x ++ '/' :: joinSegs (y :: t') from rfl]
      rw [List.append_assoc, List.cons_append]
      rw [splitCA_seg_append '/' x _ hx]
      rw [show joinSegs (y :: t') ++ '/' :: l = joinSegs (y :: t') ++ '/' :: l from rfl]
      rw [ih hrest (by simp)]
      rfl

theorem splitCA_joinSegs (H : List (List Char)) (hfree : ∀ seg ∈ H, '/' ∉ seg)
    (hne : H ≠ []) : splitCA '/' (joinSegs H) = H := by
  induction H with
  | nil => exact absurd rfl hne
  | cons x t ih =>
    cases t with
    | nil =>
      show splitCA '/' x = [x]
      exact splitCA_no_sep '/' x (hfree x (List.mem_cons_self x []))
    | cons y t' =>
      rw [show joinSegs (x :: y :: t') = x ++ '/' :: joinSegs (y :: t') from rfl]
      rw [splitCA_seg_append '/' x _ (hfree x (List.mem_cons_self x _))]
      rw [ih (fun seg hseg => hfree seg (List.mem_cons_of_mem x hseg)) (by simp)]

theorem joinSegs_append (A B : List (List Char)) (hA : A ≠ []) (hB : B ≠ []) :
    joinSegs (A ++ B) = joinSegs A ++ '/' :: joinSegs B := by
  induction A with
  | nil => exact absurd rfl hA
  | cons x t ih =>
    cases t with
    | nil =>
      cases B with
      | nil => exact absurd rfl hB
      | cons b bt => rw [show ([x] ++ b :: bt) = x :: b :: bt from rfl,
          show joinSegs (x :: b :: bt) = x ++ '/' :: joinSegs (b :: bt) from rfl]; rfl
    | cons y t' =>
      show joinSegs (x :: (y :: t' ++ B)) = _
      rw [show joinSegs (x :: (y :: t' ++ B)) = x ++ '/' :: joinSegs (y :: t' ++ B)
        from rfl]
      rw [ih (by simp)]
      rw [show joinSegs (x :: y :: t') = x ++ '/' :: joinSegs (y :: t') from rfl]
      simp [List.append_assoc]

/-! ## Normalization lemmas -/

theorem procStep_good (st : List (List Char)) (seg : List Char)
    (hg : goodSeg seg = true) : procStep st seg = st ++ [seg] := by
  unfold goodSeg at hg
  unfold procStep
  rw [if_neg, if_neg]
  · simp only [decide_eq_true_eq, not_or] at hg
    exact hg.2.2
  · simp only [decide_eq_true_eq, not_or] at hg
    exact fun h => h.elim hg.1 hg.2.1

theorem foldl_procStep_good (segs : List (List Char))
    (hg : ∀ seg ∈ segs, goodSeg seg = true) :
    ∀ st, List.foldl procStep st segs = st ++ segs := by
  induction segs with
  | nil => intro st; simp
  | cons s t ih =>
    intro st
    rw [List.foldl_cons, procStep_good st s (hg s (List.mem_cons_self s t))]
    rw [ih (fun seg hseg => hg seg (List.mem_cons_of_mem s hseg))]
    simp

theorem procStep_preserves_good (st : List (List Char)) (seg : List Char)
    (hst : ∀ s ∈ st, goodSeg s = true) :
    ∀ s ∈ procStep st seg, goodSeg s = true := by
  intro s hs
  unfold procStep at hs
  split at hs
  · exact hst s hs
  · split at hs
    · exact hst s (List.dropLast_subset _ hs)
    · rcases List.mem_append.mp hs with h | h
      · exact hst s h
      · rename_i h1 h2
        have hs' : s = seg := by simpa using h
        subst hs'
        unfold goodSeg
        simp only [decide_eq_true_eq, not_or]
        push_neg at h1
        exact ⟨h1.1, h1.2, h2⟩

theorem foldl_procStep_preserves_good (segs : List (List Char)) :
    ∀ st, (∀ s ∈ st, goodSeg s = true) →
      ∀ s ∈ List.foldl procStep st segs, goodSeg s = true := by
  induction segs with
  | nil => intro st hst; exact hst
  | cons x t ih =>
    intro st hst
    rw [List.foldl_cons]
    exact ih (procStep st x) (procStep_preserves_good st x hst)

/-! ## String plumbing -/

theorem strData_append (a b : String) : (a ++ b).data = a.data ++ b.data := rfl

theorem strMk_data (l : List Char) : (String.mk l).data = l := rfl

theorem strMk_append (a b : String) : String.mk (a.data ++ b.data) = a ++ b := rfl

theorem strApp_left_cancel (p a b : String) (h : p ++ a = p ++ b) : a = b := by
  have hd : p.data ++ a.data = p.data ++ b.data := congrArg String.data h
  have he : a.data = b.data := List.append_cancel_left hd
  cases a; cases b; cases he; rfl

theorem isPrefixOf_append_self (l t : List Char) : l.isPrefixOf (l ++ t) = true := by
  induction l with
  | nil => simp [List.isPrefixOf]
  | cons c l' ih => simp [List.isPrefixOf, ih]

theorem startsWithStr_append (p x : String) : startsWithStr (p ++ x) p = true := by
  unfold startsWithStr
  rw [strData_append]
  exact isPrefixOf_append_self p.data x.data

/-! ## The path-guard computation on normalized absolute roots -/

theorem isNormalAbs_spec (s : String) (h : isNormalAbs s = true) :
    ∃ rest, s.data = '/' :: rest ∧ ∀ seg ∈ splitCA '/' rest, goodSeg seg = true := by
  unfold isNormalAbs at h
  cases hd : s.data with
  | nil => rw [hd] at h; cases h
  | cons c t =>
    rw [hd] at h
    simp only [Bool.and_eq_true, decide_eq_true_eq, List.all_eq_true] at h
    exact ⟨t, by rw [h.1], h.2⟩

theorem normAbs_concat (home : String) (t : List Char)
    (hh : isNormalAbs home = true) :
    normAbs (String.mk (home.data ++ '/' :: t)) =
      String.mk ('/' :: joinSegs (List.foldl procStep
        (splitCA '/' (home.data.drop 1)) (splitCA '/' t))) := by
  obtain ⟨rest, hd, hgood⟩ := isNormalAbs_spec home hh
  have hfree : ∀ seg ∈ splitCA '/' rest, '/' ∉ seg := mem_splitCA_no_sep '/' rest
  have hne : splitCA '/' rest ≠ [] := splitCA_ne_nil '/' rest
  unfold normAbs
  rw [strMk_data, hd, List.cons_append]
  rw [show splitCA '/' ('/' :: (rest ++ '/' :: t)) = [] :: splitCA '/' (rest ++ '/' :: t)
    by simp [splitCA]]
  rw [show rest ++ '/' :: t = joinSegs (splitCA '/' rest) ++ '/' :: t
    by rw [joinSegs_splitCA]]
  rw [splitCA_joinSegs_append t (splitCA '/' rest) hfree hne]
  unfold procAll
  rw [List.foldl_cons]
  rw [show procStep [] [] = [] from rfl]
  rw [List.foldl_append]
  rw [foldl_procStep_good (splitCA '/' rest) hgood []]
  rw [List.nil_append]
  rfl

theorem normAbs_preserve (home : String) (x : String) (t : List Char)
    (hx : x.data = '/' :: t)
    (hh : isNormalAbs home = true)
    (ht : ∀ seg ∈ splitCA '/' t, goodSeg seg = true) :
    normAbs (home ++ x) = home ++ x := by
  obtain ⟨rest, hd, _⟩ := isNormalAbs_spec home hh
  have h1 : home ++ x = String.mk (home.data ++ '/' :: t) := by
    rw [← strMk_append, hx]
  rw [h1, normAbs_concat home t hh]
  rw [foldl_procStep_good (splitCA '/' t) ht]
  rw [hd]
  rw [show (('/' :: rest : List Char).drop 1) = rest from rfl]
  rw [joinSegs_append (splitCA '/' rest) (splitCA '/' t)
    (splitCA_ne_nil '/' rest) (splitCA_ne_nil '/' t)]
  rw [joinSegs_splitCA rest, joinSegs_splitCA t]
  rw [show ('/' :: (rest ++ '/' :: t) : List Char) = ('/' :: rest) ++ '/' :: t from rfl]

theorem startsWithChar_append_abs (home x : String) (rest : List Char)
    (hd : home.data = '/' :: rest) (c : Char) :
    startsWithChar (home ++ x) c = ('/' == c) := by
  apply startsWithChar_head
  rw [strData_append, hd]
  rfl

/-! ## Claim C1: the path guard -/

/-- Counterexample to C1 as stated: `homeDir = "/a/b/c/d"` and
`cwd = "/a/etc"` are both normalized absolute paths and neither is a string
prefix of `/etc/passwd`, yet `expandPath` accepts `~/../../../etc/passwd`
(it normalizes to `/a/etc/passwd`, which begins with `cwd`), where the
claim asserts rejection. -/
theorem expandPath_traversal_cex :
    startsWithStr "/etc/passwd" "/a/b/c/d" = false ∧
    startsWithStr "/etc/passwd" "/a/etc" = false ∧
    isNormalAbs "/a/b/c/d" = true ∧ isNormalAbs "/a/etc" = true ∧
    expandPath "~/../../../etc/passwd" "/a/b/c/d" "/a/etc" = some "/a/etc/passwd" ∧
    ¬ expandPath "~/../../../etc/passwd" "/a/b/c/d" "/a/etc" = none := by
  decide

theorem foldl_procStep_three_dots (H : List (List Char)) (hlen : H.length ≤ 3) :
    List.foldl procStep H
      [['.', '.'], ['.', '.'], ['.', '.'], ['e', 't', 'c'],
        ['p', 'a', 's', 's', 'w', 'd']] =
      [['e', 't', 'c'], ['p', 'a', 's', 's', 'w', 'd']] := by
  match H with
  | [] => decide
  | [a] => simp [procStep, List.dropLast]
  | [a, b] => simp [procStep, List.dropLast]
  | [a, b, c] => simp [procStep, List.dropLast]
  | a :: b :: c :: d :: t => simp at hlen

/-- C1 (amended).  `expandPath` acceptance is exactly the prefix test on
the tilde-expanded, resolved, normalized path; and for `homeDir` and `cwd`
that are normalized absolute paths neither of which is a string prefix of
`/etc/passwd`, with `homeDir` consisting of at most three segments,
`expandPath` rejects `/etc/passwd` and `~/../../../etc/passwd` and accepts
`homeDir + "/some/path"` and `cwd + "/subdir/file"`. -/
theorem expandPath_pathGuard (home cwd : String)
    (hh : isNormalAbs home = true) (hc : isNormalAbs cwd = true)
    (h1 : startsWithStr "/etc/passwd" home = false)
    (h2 : startsWithStr "/etc/passwd" cwd = false)
    (hlen : segCount home ≤ 3) :
    (∀ raw, expandPath raw home cwd =
      (let n := jsNormalize (jsResolve cwd (tildeExpand raw home))
       if startsWithStr n home || startsWithStr n cwd then some n else none)) ∧
    expandPath "/etc/passwd" home cwd = none ∧
    expandPath "~/../../../etc/passwd" home cwd = none ∧
    expandPath (home ++ "/some/path") home cwd = some (home ++ "/some/path") ∧
    expandPath (cwd ++ "/subdir/file") home cwd = some (cwd ++ "/subdir/file") := by
  obtain ⟨rest, hd, hgood⟩ := isNormalAbs_spec home hh
  obtain ⟨restc, hdc, hgoodc⟩ := isNormalAbs_spec cwd hc
  refine ⟨fun raw => rfl, ?_, ?_, ?_, ?_⟩
  · have e0 : tildeExpand "/etc/passwd" home = "/etc/passwd" := by
      simp [tildeExpand, show startsWithChar "/etc/passwd" '~' = false from by decide]
    have e1 : jsResolve cwd "/etc/passwd" = "/etc/passwd" := by
      simp [jsResolve, show startsWithChar "/etc/passwd" '/' = true from by decide,
        show normAbs "/etc/passwd" = "/etc/passwd" from by decide]
    simp only [expandPath, e0, e1, show jsNormalize "/etc/passwd" = "/etc/passwd"
      from by decide, h1, h2, Bool.or_self, Bool.false_eq_true, if_false]
  · have e0 : tildeExpand "~/../../../etc/passwd" home =
        home ++ "/../../../etc/passwd" := by
      simp [tildeExpand,
        show startsWithChar "~/../../../etc/passwd" '~' = true from by decide,
        show substrFrom "~/../../../etc/passwd" 1 = "/../../../etc/passwd"
          from by decide]
    have e1 : startsWithChar (home ++ "/../../../etc/passwd") '/' = true := by
      rw [startsWithChar_append_abs home _ rest hd]; decide
    have e2 : normAbs (home ++ "/../../../etc/passwd") = "/etc/passwd" := by
      have hx : home ++ "/../../../etc/passwd" =
          String.mk (home.data ++ '/' :: ("../../../etc/passwd" : String).data) := by
        rw [← strMk_append]
      rw [hx, normAbs_concat home _ hh]
      rw [show splitCA '/' ("../../../etc/passwd" : String).data =
        [['.', '.'], ['.', '.'], ['.', '.'], ['e', 't', 'c'],
          ['p', 'a', 's', 's', 'w', 'd']] from by decide]
      rw [foldl_procStep_three_dots _ (by
        have : segCount home = (splitCA '/' (home.data.drop 1)).length := rfl
        rw [this] at hlen
        exact hlen)]
      decide
    have e3 : jsResolve cwd (home ++ "/../../../etc/passwd") = "/etc/passwd" := by
      simp [jsResolve, e1, e2]
    simp only [expandPath, e0, e3, show jsNormalize "/etc/passwd" = "/etc/passwd"
      from by decide, h1, h2, Bool.or_self, Bool.false_eq_true, if_false]
  · have e0 : tildeExpand (home ++ "/some/path") home = home ++ "/some/path" := by
      simp [tildeExpand, startsWithChar_append_abs home _ rest hd]
    have e1 : startsWithChar (home ++ "/some/path") '/' = true := by
      rw [startsWithChar_append_abs home _ rest hd]; decide
    have e2 : normAbs (home ++ "/some/path") = home ++ "/some/path" :=
      normAbs_preserve home "/some/path" ("some/path" : String).data (by decide) hh
        (by decide)
    have e3 : jsResolve cwd (home ++ "/some/path") = home ++ "/some/path" := by
      simp [jsResolve, e1, e2]
    have e4 : jsNormalize (home ++ "/some/path") = home ++ "/some/path" := by
      simp [jsNormalize, e1, e2]
    simp only [expandPath, e0, e3, e4, startsWithStr_append, Bool.true_or, if_true]
  · have e0 : tildeExpand (cwd ++ "/subdir/file") home = cwd ++ "/subdir/file" := by
      simp [tildeExpand, startsWithChar_append_abs cwd _ restc hdc]
    have e1 : startsWithChar (cwd ++ "/subdir/file") '/' = true := by
      rw [startsWithChar_append_abs cwd _ restc hdc]; decide
    have e2 : normAbs (cwd ++ "/subdir/file") = cwd ++ "/subdir/file" :=
      normAbs_preserve cwd "/subdir/file" ("subdir/file" : String).data (by decide) hc
        (by decide)
    have e3 : jsResolve cwd (cwd ++ "/subdir/file") = cwd ++ "/subdir/file" := by
      simp [jsResolve, e1, e2]
    have e4 : jsNormalize (cwd ++ "/subdir/file") = cwd ++ "/subdir/file" := by
      simp [jsNormalize, e1, e2]
    simp only [expandPath, e0, e3, e4, startsWithStr_append, Bool.or_true, if_true]

/-- Witness for C1 (amended) at `homeDir = "/home/user"`,
`cwd = "/work/proj"`. -/
theorem expandPath_pathGuard_witness :
    isNormalAbs "/home/user" = true ∧ isNormalAbs "/work/proj" = true ∧
    startsWithStr "/etc/passwd" "/home/user" = false ∧
    startsWithStr "/etc/passwd" "/work/proj" = false ∧
    segCount "/home/user" ≤ 3 ∧
    expandPath "/etc/passwd" "/home/user" "/work/proj" = none ∧
    expandPath "~/../../../etc/passwd" "/home/user" "/work/proj" = none ∧
    expandPath ("/home/user" ++ "/some/path") "/home/user" "/work/proj" =
      some ("/home/user" ++ "/some/path") ∧
    expandPath ("/work/proj" ++ "/subdir/file") "/home/user" "/work/proj" =
      some ("/work/proj" ++ "/subdir/file") :=
  have h := expandPath_pathGuard "/home/user" "/work/proj" (by decide) (by decide)
    (by decide) (by decide) (by decide)
  ⟨by decide, by decide, by decide, by decide, by decide,
   h.2.1, h.2.2.1, h.2.2.2.1, h.2.2.2.2⟩

/-! ## Loader lemmas -/

theorem orD_none_right (a : Option String) : orD a none = a := by
  cases a <;> rfl

theorem orD_assoc (a b c : Option String) :
    orD (orD a b) c = orD a (orD b c) := by
  cases a <;> rfl

theorem lookupKV_writeVarsF (f : String → String) :
    ∀ (vars : Rec) (env : Env) (q : String),
      lookupKV (writeVarsF f env vars) q =
        orD (lookupLastF f vars q) (lookupKV env q) := by
  intro vars
  induction vars with
  | nil => intro env q; rfl
  | cons kv t ih =>
    intro env q
    show lookupKV (writeVarsF f (insertKV env (f kv.1) kv.2) t) q = _
    rw [ih, lookupKV_insertKV]
    show _ = orD (orD (lookupLastF f t q) (if f kv.1 = q then some kv.2 else none))
      (lookupKV env q)
    rw [orD_assoc]
    apply congrArg (orD (lookupLastF f t q))
    by_cases hq : f kv.1 = q <;> simp [hq, orD]

theorem lookupKV_loadSeq (fs : Fs) (p : Option String) :
    ∀ (paths : List String) (env : Env) (q : String),
      lookupKV (loadSeq fs p paths env) q =
        orD (lastLoadedF fs (applyPfx p) paths q) (lookupKV env q) := by
  intro paths
  induction paths with
  | nil => intro env q; rfl
  | cons fp t ih =>
    intro env q
    show lookupKV (loadSeq fs p t (loadDotenvFile fs fp p env).1) q = _
    rcases hfs : fs fp with _ | c
    · have h1 : (loadDotenvFile fs fp p env).1 = env := by
        simp [loadDotenvFile, hfs]
      rw [h1, ih]
      simp only [lastLoadedF, hfs, orD_none_right]
    · have h1 : (loadDotenvFile fs fp p env).1 =
          writeVarsF (applyPfx p) env (parseDotenvStr c) := by
        simp [loadDotenvFile, hfs]
      rw [h1, ih, lookupKV_writeVarsF]
      simp only [lastLoadedF, hfs, orD_assoc]

theorem mem_keysOf_insertKV (m : Rec) (k v q : String) :
    q ∈ keysOf (insertKV m k v) ↔ q ∈ keysOf m ∨ q = k := by
  induction m with
  | nil => simp [insertKV, keysOf]
  | cons kv t ih =>
    obtain ⟨k', v'⟩ := kv
    by_cases hk : k' = k
    · subst hk
      simp [insertKV, keysOf]
      tauto
    · simp only [insertKV, if_neg hk, keysOf, List.map_cons, List.mem_cons] at ih ⊢
      rw [ih]
      tauto

theorem nodup_insertKV (m : Rec) (k v : String) (h : (keysOf m).Nodup) :
    (keysOf (insertKV m k v)).Nodup := by
  induction m with
  | nil => simp [insertKV, keysOf]
  | cons kv t ih =>
    obtain ⟨k', v'⟩ := kv
    simp only [keysOf, List.map_cons, List.nodup_cons] at h
    by_cases hk : k' = k
    · subst hk
      have he : insertKV ((k', v') :: t) k' v = (k', v) :: t := by simp [insertKV]
      rw [he]
      simp only [keysOf, List.map_cons, List.nodup_cons]
      exact ⟨h.1, h.2⟩
    · simp only [insertKV, if_neg hk, keysOf, List.map_cons, List.nodup_cons]
      refine ⟨?_, ih h.2⟩
      intro hmem
      rcases (mem_keysOf_insertKV t k v k').mp hmem with h' | h'
      · exact h.1 h'
      · exact hk h'

theorem assignLine_nodup (line1 : String) (acc : Rec)
    (h : (keysOf acc).Nodup) : (keysOf (assignLine line1 acc)).Nodup := by
  unfold assignLine
  split
  · exact h
  · dsimp only
    split
    · exact nodup_insertKV acc _ _ h
    · exact h

theorem finalizeLine_nodup (line : String) (acc : Rec)
    (h : (keysOf acc).Nodup) : (keysOf (finalizeLine line acc)).Nodup :=
  assignLine_nodup _ acc h

theorem plAux_nodup (lines : List String) :
    ∀ (st : Option String) (acc : Rec), (keysOf acc).Nodup →
      (keysOf (plAux lines st acc)).Nodup := by
  induction lines with
  | nil =>
    intro st acc h
    cases st with
    | none => exact h
    | some pline => exact finalizeLine_nodup pline acc h
  | cons l rest ih =>
    intro st acc h
    cases st with
    | none =>
      rw [plAux]
      split
      · exact ih none acc h
      · split
        · exact ih _ acc h
        · exact ih none _ (finalizeLine_nodup _ acc h)
    | some pline =>
      rw [plAux]
      split
      · exact ih _ acc h
      · exact ih none _ (finalizeLine_nodup _ acc h)

theorem parseDotenvStr_nodup (s : String) : (keysOf (parseDotenvStr s)).Nodup :=
  plAux_nodup (splitLines s) none [] (by simp [keysOf])

theorem lookupLastF_none (f : String → String) (vars : Rec) (q : String)
    (h : ∀ kv ∈ vars, ¬ f kv.1 = q) : lookupLastF f vars q = none := by
  induction vars with
  | nil => rfl
  | cons kv t ih =>
    show orD (lookupLastF f t q) (if f kv.1 = q then some kv.2 else none) = none
    rw [if_neg (h kv (List.mem_cons_self kv t)),
      ih (fun kv' h' => h kv' (List.mem_cons_of_mem kv h'))]
    rfl

theorem lookupKV_mem_keys (m : Rec) (k v : String) (h : lookupKV m k = some v) :
    k ∈ keysOf m := by
  induction m with
  | nil => cases h
  | cons kv t ih =>
    unfold lookupKV at h
    split at h
    · rename_i hk
      simp [keysOf, hk]
    · simp [keysOf]
      exact Or.inr (by simpa [keysOf] using ih h)

theorem lookupLastF_lookupKV (f : String → String)
    (hinj : ∀ a b, f a = f b → a = b) :
    ∀ (vars : Rec), (keysOf vars).Nodup → ∀ k,
      lookupLastF f vars (f k) = lookupKV vars k := by
  intro vars
  induction vars with
  | nil => intro _ k; rfl
  | cons kv t ih =>
    intro hnd k
    obtain ⟨k1, v1⟩ := kv
    simp only [keysOf, List.map_cons, List.nodup_cons] at hnd
    show orD (lookupLastF f t (f k)) (if f k1 = f k then some v1 else none) =
      lookupKV ((k1, v1) :: t) k
    by_cases hk : k1 = k
    · rw [if_pos (by rw [hk])]
      have hnone : lookupLastF f t (f k) = none := by
        apply lookupLastF_none
        intro kv' hmem heq
        have hkk : kv'.1 = k := hinj _ _ heq
        exact hnd.1 (hk ▸ hkk ▸ List.mem_map_of_mem Prod.fst hmem)
      rw [hnone]
      show some v1 = lookupKV ((k1, v1) :: t) k
      simp [lookupKV, hk]
    · rw [if_neg (fun heq => hk (hinj _ _ heq)), orD_none_right, ih hnd.2 k]
      show lookupKV t k = lookupKV ((k1, v1) :: t) k
      simp [lookupKV, hk]

theorem applyPfx_none (k : String) : applyPfx none k = k := rfl

theorem lookupLastF_pfxNone (vars : Rec) (hnd : (keysOf vars).Nodup) (k : String) :
    lookupLastF (applyPfx none) vars k = lookupKV vars k :=
  lookupLastF_lookupKV (applyPfx none) (fun _ _ h => h) vars hnd k

theorem lastLoadedF_pfxNone (fs : Fs) :
    ∀ (paths : List String) (k : String),
      lastLoadedF fs (applyPfx none) paths k = lastLoadedValue fs paths k := by
  intro paths
  induction paths with
  | nil => intro k; rfl
  | cons fp t ih =>
    intro k
    show orD (lastLoadedF fs (applyPfx none) t k) _ =
      orD (lastLoadedValue fs t k) _
    rw [ih]
    apply congrArg (orD (lastLoadedValue fs t k))
    rcases hfs : fs fp with _ | c
    · rfl
    · exact lookupLastF_pfxNone (parseDotenvStr c) (parseDotenvStr_nodup c) k

theorem runFiles_eq_loadSeq (fs : Fs) (home cwd : String) (p : Option String) :
    ∀ (raws : List String) (env : Env),
      runFiles fs home cwd p raws env =
        loadSeq fs p (raws.filterMap (fun r => expandPath r home cwd)) env := by
  intro raws
  induction raws with
  | nil => intro env; rfl
  | cons raw rest ih =>
    intro env
    rcases hexp : expandPath raw home cwd with _ | fp
    · simp only [runFiles, hexp, List.filterMap_cons]
      exact ih env
    · simp only [runFiles, hexp, List.filterMap_cons]
      rw [ih]
      rfl

theorem loadSeq_append (fs : Fs) (p : Option String) (A B : List String) (env : Env) :
    loadSeq fs p (A ++ B) env = loadSeq fs p B (loadSeq fs p A env) := by
  unfold loadSeq
  rw [List.foldl_append]

theorem DotEnvPlugin_eq_loadSeq (config : DotEnvConfig) (fs : Fs)
    (home cwd : String) (env : Env) :
    DotEnvPlugin config fs home cwd env =
      loadSeq fs config.pfx (effPaths config home cwd) env := by
  unfold DotEnvPlugin effPaths
  by_cases hcw : config.load_cwd_env = some false
  · rw [if_pos hcw, if_pos hcw, List.append_nil, runFiles_eq_loadSeq]
  · rw [if_neg hcw, if_neg hcw, loadSeq_append, runFiles_eq_loadSeq]
    rfl

/-! ## Claim C2: loader precedence -/

/-- C2.  With no prefix configured, the loader is the sequential load of
exactly the guard-accepted entries of `config.files` in array order
followed by `cwd + "/.env"` if and only if `load_cwd_env` is not `false`;
and for every key `k`, the final environment value is the value from the
latest loaded file containing `k`, falling back to the caller's prior
value only when no loaded file contains `k` (so loaded values overwrite
caller-set values unconditionally). -/
theorem DotEnvPlugin_precedence (config : DotEnvConfig) (fs : Fs)
    (home cwd : String) (env : Env) (hpfx : config.pfx = none) :
    DotEnvPlugin config fs home cwd env =
      loadSeq fs config.pfx (effPaths config home cwd) env ∧
    effPaths config home cwd =
      config.files.filterMap (fun r => expandPath r home cwd) ++
        (if config.load_cwd_env = some false then [] else [cwd ++ "/.env"]) ∧
    ∀ k, lookupKV (DotEnvPlugin config fs home cwd env) k =
      orD (lastLoadedValue fs (effPaths config home cwd) k) (lookupKV env k) := by
  refine ⟨DotEnvPlugin_eq_loadSeq config fs home cwd env, rfl, fun k => ?_⟩
  rw [DotEnvPlugin_eq_loadSeq, lookupKV_loadSeq, hpfx, lastLoadedF_pfxNone]

/-- Witness for C2: two files plus the cwd `.env` in order; the latest file
containing `A` wins and a caller-set variable is overwritten. -/
theorem DotEnvPlugin_precedence_witness :
    (let cfg : DotEnvConfig :=
      { files := ["/h/a.env", "/h/b.env"], load_cwd_env := none, pfx := none,
        logging := none }
     let fs : Fs := fun fp =>
      if fp = "/h/a.env" then some "A=1\nOLD=new"
      else if fp = "/h/b.env" then some "A=2\nB=3"
      else if fp = "/w/.env" then some "B=4" else none
     let env0 : Env := [("OLD", "old")]
     lookupKV (DotEnvPlugin cfg fs "/h" "/w" env0) "A" =
       orD (lastLoadedValue fs (effPaths cfg "/h" "/w") "A") (lookupKV env0 "A") ∧
     lookupKV (DotEnvPlugin cfg fs "/h" "/w" env0) "A" = some "2" ∧
     lookupKV (DotEnvPlugin cfg fs "/h" "/w" env0) "B" = some "4" ∧
     lookupKV (DotEnvPlugin cfg fs "/h" "/w" env0) "OLD" = some "new") := by
  refine ⟨(DotEnvPlugin_precedence _ _ "/h" "/w" _ rfl).2.2 "A", ?_, ?_, ?_⟩ <;> decide

/-! ## Claim C10: the prefix feature -/

theorem strNe_empty_data (p : String) (h : ¬ p = "") : ¬ p.data = [] := by
  intro hd
  apply h
  cases p
  cases hd
  rfl

theorem applyPfx_some (p k : String) (hp : ¬ p.data = []) :
    applyPfx (some p) k = p ++ k := by
  simp [applyPfx, hp]

/-- C10.  With a non-empty prefix `p`, every key/value pair parsed from a
loaded file is written under `p ++ key` (and carries the parsed value);
any environment name that is not of the form `p ++ key` for a parsed key —
in particular a parsed key's own unprefixed name when no other pair's
prefixed name collides with it — is left untouched; with no prefix the key
is written under its own name. -/
theorem loadDotenvFile_prefixed (fs : Fs) (p fp content : String) (env : Env)
    (k : String) (hp : ¬ p = "") (hfs : fs fp = some content) :
    (∀ v, lookupKV (parseDotenvStr content) k = some v →
      lookupKV (loadDotenvFile fs fp (some p) env).1 (p ++ k) = some v) ∧
    ((∀ kv ∈ parseDotenvStr content, ¬ p ++ kv.1 = k) →
      lookupKV (loadDotenvFile fs fp (some p) env).1 k = lookupKV env k) ∧
    (∀ v, lookupKV (parseDotenvStr content) k = some v →
      lookupKV (loadDotenvFile fs fp none env).1 k = some v) := by
  have hpd : ¬ p.data = [] := strNe_empty_data p hp
  have hinj : ∀ a b, applyPfx (some p) a = applyPfx (some p) b → a = b := by
    intro a b hab
    rw [applyPfx_some p a hpd, applyPfx_some p b hpd] at hab
    exact strApp_left_cancel p a b hab
  have h1 : (loadDotenvFile fs fp (some p) env).1 =
      writeVarsF (applyPfx (some p)) env (parseDotenvStr content) := by
    simp [loadDotenvFile, hfs]
  have h1n : (loadDotenvFile fs fp none env).1 =
      writeVarsF (applyPfx none) env (parseDotenvStr content) := by
    simp [loadDotenvFile, hfs]
  refine ⟨fun v hv => ?_, fun hno => ?_, fun v hv => ?_⟩
  · rw [h1, lookupKV_writeVarsF]
    have : lookupLastF (applyPfx (some p)) (parseDotenvStr content)
        (applyPfx (some p) k) = lookupKV (parseDotenvStr content) k :=
      lookupLastF_lookupKV _ hinj _ (parseDotenvStr_nodup content) k
    rw [applyPfx_some p k hpd] at this
    rw [this, hv]
    rfl
  · rw [h1, lookupKV_writeVarsF]
    rw [lookupLastF_none _ _ _ (fun kv hkv => by
      rw [applyPfx_some p kv.1 hpd]; exact hno kv hkv)]
    rfl
  · rw [h1n, lookupKV_writeVarsF]
    rw [lookupLastF_pfxNone _ (parseDotenvStr_nodup content), hv]
    rfl

/-- Witness for C10 at a concrete file with prefix `MY_`. -/
theorem loadDotenvFile_prefixed_witness :
    (let fs : Fs := fun fp => if fp = "/h/.env" then some "A=1\nB=2" else none
     lookupKV (loadDotenvFile fs "/h/.env" (some "MY_") []).1 ("MY_" ++ "A") =
       some "1" ∧
     lookupKV (loadDotenvFile fs "/h/.env" (some "MY_") []).1 "A" =
       lookupKV ([] : Env) "A" ∧
     lookupKV (loadDotenvFile fs "/h/.env" none []).1 "A" = some "1") := by
  refine ⟨?_, ?_, ?_⟩
  · exact (loadDotenvFile_prefixed _ "MY_" "/h/.env" "A=1\nB=2" [] "A"
      (by decide) (by decide)).1 "1" (by decide)
  · exact (loadDotenvFile_prefixed _ "MY_" "/h/.env" "A=1\nB=2" [] "A"
      (by decide) (by decide)).2.1 (by decide)
  · exact (loadDotenvFile_prefixed _ "MY_" "/h/.env" "A=1\nB=2" [] "A"
      (by decide) (by decide)).2.2 "1" (by decide)

/-! ## Claim C9: the logging default -/

/-- Counterexample to C9 as stated: when no configuration document parses
successfully (`ConfigSource.missing`), `loggingEnabled` is not `false` — it
keeps its initial value `true` (line 129 of the source initializes
`let loggingEnabled = true`); and a valid document that omits
`logging.enabled` also yields `loggingEnabled = true`, because the source
computes `config.logging?.enabled !== false`. -/
theorem loadConfig_logging_cex :
    ¬ (loadConfig ConfigSource.missing loggingEnabledInit).2 = false ∧
    ¬ (loadConfig (ConfigSource.valid
        { files := [], load_cwd_env := some true, pfx := none, logging := none })
        loggingEnabledInit).2 = false := by
  decide

/-- C9 (amended).  When no candidate configuration document parses
successfully, the resolver returns the default record
`{ files: [], load_cwd_env: true }` and leaves the module-level
`loggingEnabled` flag unchanged from its initial value `true`; and when a
valid document omits `logging.enabled` (or sets it to `true`), the flag
becomes `true` — logging is on unless explicitly disabled with
`enabled: false`. -/
theorem loadConfig_logging (b : Bool) (c : DotEnvConfig) :
    loadConfig ConfigSource.missing b = (defaultConfig, b) ∧
    loadConfig ConfigSource.invalid b = (defaultConfig, b) ∧
    loggingEnabledInit = true ∧
    (c.logging.bind LoggingCfg.enabled = none →
      (loadConfig (ConfigSource.valid c) b).2 = true) ∧
    (c.logging.bind LoggingCfg.enabled = some true →
      (loadConfig (ConfigSource.valid c) b).2 = true) ∧
    (c.logging.bind LoggingCfg.enabled = some false →
      (loadConfig (ConfigSource.valid c) b).2 = false) := by
  refine ⟨rfl, rfl, rfl, fun h => ?_, fun h => ?_, fun h => ?_⟩ <;>
    simp [loadConfig, h]

/-- Witness for C9 (amended) at concrete documents. -/
theorem loadConfig_logging_witness :
    (loadConfig ConfigSource.missing loggingEnabledInit =
      (defaultConfig, loggingEnabledInit)) ∧
    (loadConfig (ConfigSource.valid
        { files := ["/h/.env"], load_cwd_env := none, pfx := none,
          logging := none }) true).2 = true ∧
    (loadConfig (ConfigSource.valid
        { files := [], load_cwd_env := none, pfx := none,
          logging := some { enabled := some false } }) true).2 = false :=
  ⟨(loadConfig_logging loggingEnabledInit defaultConfig).1,
   (loadConfig_logging true
      { files := ["/h/.env"], load_cwd_env := none, pfx := none,
        logging := none }).2.2.2.1 (by decide),
   (loadConfig_logging true
      { files := [], load_cwd_env := none, pfx := none,
        logging := some { enabled := some false } }).2.2.2.2.2 (by decide)⟩

end Dotenv










